import Mathlib

/-!
Verification of the photo-mosaic generator (`mosaic.py`).

The numeric Python code is embedded shallowly in Lean: Python ints become
`Nat`/`Int`, Python floats become exact rationals `ℚ`, images become a
structure carrying width, height and a pixel function, and the external
collaborators (PIL resize / unsharp filters, the randomness source) become
explicit function parameters constrained only by the contracts the code
relies on.  Distances reported by the color index are modelled as squared
Euclidean distances (ascending order and zero-ness agree with the true
Euclidean distance).
-/

/-- Style constants from the top of `mosaic.py`. -/
def TILE_W : ℕ := 40

/-- Tile height constant. -/
def TILE_H : ℕ := 40

/-- Minimum number of grid columns. -/
def MIN_COLS : ℕ := 60

/-- Maximum number of grid columns. -/
def MAX_COLS : ℕ := 160

/-- Top-K candidate pool size. -/
def TOP_K : ℕ := 50

/-- Lower bound of the automatic blend alpha. -/
def ALPHA_MIN : ℚ := 0.18

/-- Upper bound of the automatic blend alpha. -/
def ALPHA_MAX : ℚ := 0.45

/-- `clamp(x, lo, hi)` from `mosaic.py`:
`return lo if x < lo else hi if x > hi else x`. -/
def clamp {α : Type} [LinearOrder α] (x lo hi : α) : α :=
  if x < lo then lo else if hi < x then hi else x

/-- Python 3's built-in `round` on an exact value: round half to even
(banker's rounding).  Used to embed `int(round(...))` in
`choose_grid_size`. -/
def pyRound (q : ℚ) : ℤ :=
  if q - ⌊q⌋ < 1/2 then ⌊q⌋
  else if 1/2 < q - ⌊q⌋ then ⌊q⌋ + 1
  else if ⌊q⌋ % 2 = 0 then ⌊q⌋ else ⌊q⌋ + 1

/-- `choose_grid_size(main_w, main_h, tile_w, tile_h)` from `mosaic.py`:
`cols = clamp(main_w // tile_w, MIN_COLS, MAX_COLS)`;
`rows = max(1, int(round(cols * (main_h / main_w))))`.
The float arithmetic is modelled over ℚ. -/
def choose_grid_size (main_w main_h tile_w tile_h : ℕ) : ℕ × ℕ :=
  let cols : ℕ := clamp (main_w / tile_w) MIN_COLS MAX_COLS
  let rows : ℤ := pyRound ((cols : ℚ) * ((main_h : ℚ) / (main_w : ℚ)))
  (cols, (max 1 rows).toNat)

/-- `auto_tile_alpha(cols, rows)` from `mosaic.py`:
`density = cols * rows; alpha = 0.42 - 0.000008 * density;
return clamp(alpha, ALPHA_MIN, ALPHA_MAX)`. -/
def auto_tile_alpha (cols rows : ℕ) : ℚ :=
  clamp (0.42 - 0.000008 * ((cols * rows : ℕ) : ℚ)) ALPHA_MIN ALPHA_MAX

lemma clamp_eq_max_min {α : Type} [LinearOrder α] (x lo hi : α) (h : lo ≤ hi) :
    clamp x lo hi = max lo (min hi x) := by
  unfold clamp
  split_ifs with h1 h2
  · rw [max_eq_left ((min_le_right hi x).trans (le_of_lt h1))]
  · rw [min_eq_left (le_of_lt h2), max_eq_right h]
  · rw [min_eq_right (le_of_not_lt h2), max_eq_right (le_of_not_lt h1)]

lemma clamp_le_hi {α : Type} [LinearOrder α] (x lo hi : α) (h : lo ≤ hi) :
    clamp x lo hi ≤ hi := by
  unfold clamp; split_ifs <;> simp_all [le_of_not_lt]

lemma lo_le_clamp {α : Type} [LinearOrder α] (x lo hi : α) (h : lo ≤ hi) :
    lo ≤ clamp x lo hi := by
  unfold clamp; split_ifs <;> simp_all [le_of_not_lt]

lemma clamp_mono {α : Type} [LinearOrder α] (x y lo hi : α) (h : lo ≤ hi)
    (hxy : x ≤ y) : clamp x lo hi ≤ clamp y lo hi := by
  rw [clamp_eq_max_min _ _ _ h, clamp_eq_max_min _ _ _ h]
  exact max_le_max (le_refl _) (min_le_min (le_refl _) hxy)

/-- Claim C2: `choose_grid_size` returns exactly
`cols = clamp(floor(w / tw), MIN_COLS, MAX_COLS)` (written with `max`/`min`)
and `rows = max(1, round(cols * h / w))`, hence `cols ∈ [MIN_COLS, MAX_COLS]`
and `rows ≥ 1`. -/
theorem choose_grid_size_spec (w h tw th : ℕ)
    (htw : 0 < tw) (hwtw : tw ≤ w) (hh : 0 < h) :
    (choose_grid_size w h tw th).1 = max MIN_COLS (min MAX_COLS (w / tw)) ∧
    ((choose_grid_size w h tw th).2 : ℤ) =
      max 1 (pyRound (((choose_grid_size w h tw th).1 : ℚ) * (h : ℚ) / (w : ℚ))) ∧
    MIN_COLS ≤ (choose_grid_size w h tw th).1 ∧
    (choose_grid_size w h tw th).1 ≤ MAX_COLS ∧
    1 ≤ (choose_grid_size w h tw th).2 := by
  have hminmax : (MIN_COLS : ℕ) ≤ MAX_COLS := by decide
  have h1 : (choose_grid_size w h tw th).1 = clamp (w / tw) MIN_COLS MAX_COLS := rfl
  have h2 : (choose_grid_size w h tw th).2 =
      (max 1 (pyRound (((clamp (w / tw) MIN_COLS MAX_COLS : ℕ) : ℚ) *
        ((h : ℚ) / (w : ℚ))))).toNat := rfl
  refine ⟨?_, ?_, ?_, ?_, ?_⟩
  · rw [h1]; exact clamp_eq_max_min _ _ _ hminmax
  · rw [h2, h1, mul_div_assoc,
      Int.toNat_of_nonneg (le_trans zero_le_one (le_max_left 1 _))]
  · rw [h1]; exact lo_le_clamp _ _ _ hminmax
  · rw [h1]; exact clamp_le_hi _ _ _ hminmax
  · rw [h2]; omega

/-- Witness for C2 at a concrete input. -/
theorem choose_grid_size_spec_witness :
    0 < 40 ∧ 40 ≤ 1200 ∧ 0 < 900 ∧
    ((choose_grid_size 1200 900 40 40).1 = max MIN_COLS (min MAX_COLS (1200 / 40)) ∧
     ((choose_grid_size 1200 900 40 40).2 : ℤ) =
       max 1 (pyRound (((choose_grid_size 1200 900 40 40).1 : ℚ) * (900 : ℚ) / (1200 : ℚ))) ∧
     MIN_COLS ≤ (choose_grid_size 1200 900 40 40).1 ∧
     (choose_grid_size 1200 900 40 40).1 ≤ MAX_COLS ∧
     1 ≤ (choose_grid_size 1200 900 40 40).2) :=
  ⟨by decide, by decide, by decide,
   choose_grid_size_spec 1200 900 40 40 (by decide) (by decide) (by decide)⟩

/-- Claim C3: The automatic blend alpha is monotonically non-increasing in the
grid density `cols * rows`, and always lies within
`[ALPHA_MIN, ALPHA_MAX]`. -/
theorem auto_tile_alpha_mono_and_range (c1 r1 c2 r2 : ℕ) (hd : c1 * r1 ≤ c2 * r2) :
    auto_tile_alpha c2 r2 ≤ auto_tile_alpha c1 r1 ∧
    ∀ c r : ℕ, ALPHA_MIN ≤ auto_tile_alpha c r ∧ auto_tile_alpha c r ≤ ALPHA_MAX := by
  have hb : ALPHA_MIN ≤ ALPHA_MAX := by norm_num [ALPHA_MIN, ALPHA_MAX]
  constructor
  · apply clamp_mono _ _ _ _ hb
    have hc : ((c1 * r1 : ℕ) : ℚ) ≤ ((c2 * r2 : ℕ) : ℚ) := by exact_mod_cast hd
    linarith
  · intro c r
    exact ⟨lo_le_clamp _ _ _ hb, clamp_le_hi _ _ _ hb⟩

/-- Witness for C3 at concrete densities 60 ≤ 320. -/
theorem auto_tile_alpha_mono_and_range_witness :
    60 * 1 ≤ 160 * 2 ∧
    (auto_tile_alpha 160 2 ≤ auto_tile_alpha 60 1 ∧
     ∀ c r : ℕ, ALPHA_MIN ≤ auto_tile_alpha c r ∧ auto_tile_alpha c r ≤ ALPHA_MAX) :=
  ⟨by decide, auto_tile_alpha_mono_and_range 60 1 160 2 (by decide)⟩

/-- Claim C10: The pre-clamp alpha never exceeds `0.42 < ALPHA_MAX`, so the upper
clamp of `auto_tile_alpha` is never active: the function equals
`max ALPHA_MIN (0.42 - 0.000008 * density)` and its effective range is
`[ALPHA_MIN, 0.42]`; moreover every grid produced by `choose_grid_size` has
density `cols * rows ≥ MIN_COLS`. -/
theorem auto_tile_alpha_upper_clamp_inactive :
    (∀ c r : ℕ, auto_tile_alpha c r ≤ 0.42) ∧
    (0.42 : ℚ) < ALPHA_MAX ∧
    (∀ c r : ℕ, auto_tile_alpha c r =
       max ALPHA_MIN (0.42 - 0.000008 * ((c * r : ℕ) : ℚ))) ∧
    (∀ c r : ℕ, ALPHA_MIN ≤ auto_tile_alpha c r) ∧
    (∀ w h tw th : ℕ,
       MIN_COLS ≤ (choose_grid_size w h tw th).1 * (choose_grid_size w h tw th).2) := by
  have hb : ALPHA_MIN ≤ ALPHA_MAX := by norm_num [ALPHA_MIN, ALPHA_MAX]
  have hval : ∀ c r : ℕ, (0.42 - 0.000008 * ((c * r : ℕ) : ℚ)) ≤ 0.42 := by
    intro c r
    have : (0 : ℚ) ≤ ((c * r : ℕ) : ℚ) := Nat.cast_nonneg _
    linarith
  have heq : ∀ c r : ℕ, auto_tile_alpha c r =
      max ALPHA_MIN (0.42 - 0.000008 * ((c * r : ℕ) : ℚ)) := by
    intro c r
    unfold auto_tile_alpha
    rw [clamp_eq_max_min _ _ _ hb, min_eq_right]
    calc 0.42 - 0.000008 * ((c * r : ℕ) : ℚ) ≤ 0.42 := hval c r
      _ ≤ ALPHA_MAX := by norm_num [ALPHA_MAX]
  refine ⟨?_, by norm_num [ALPHA_MAX], heq, ?_, ?_⟩
  · intro c r
    rw [heq c r]
    apply max_le _ (hval c r)
    norm_num [ALPHA_MIN]
  · intro c r
    exact lo_le_clamp _ _ _ hb
  · intro w h tw th
    have hcols : MIN_COLS ≤ (choose_grid_size w h tw th).1 :=
      lo_le_clamp _ _ _ (by decide)
    have hrows : 1 ≤ (choose_grid_size w h tw th).2 := by
      show 1 ≤ (max 1 (pyRound _)).toNat
      omega
    calc MIN_COLS = MIN_COLS * 1 := (Nat.mul_one _).symm
      _ ≤ (choose_grid_size w h tw th).1 * (choose_grid_size w h tw th).2 :=
          Nat.mul_le_mul hcols hrows

/-- RGB color with exact rational channels. -/
abbrev RGBq := ℚ × ℚ × ℚ

/-- Squared Euclidean distance between two RGB colors. -/
def sqDist (a b : RGBq) : ℚ :=
  (a.1 - b.1) ^ 2 + (a.2.1 - b.2.1) ^ 2 + (a.2.2 - b.2.2) ^ 2

/-- The (tile index, squared distance to `c`) pairs in tile order: the point
set `build_kdtree` stacks into the KDTree, paired with the distances for a
query color `c`. -/
def distList (colors : List RGBq) (c : RGBq) : List (ℕ × ℚ) :=
  (List.range colors.length).map (fun j => (j, sqDist (colors.getD j (0, 0, 0)) c))

/-- `tree.query(color, k=k)` of `scipy.spatial.KDTree` as used in
`make_mosaic`: the `min k n` nearest tile indices by Euclidean distance in
ascending order (distances are reported squared here; `make_mosaic` always
clamps `k` to the tile count before querying, and distance ties are broken
deterministically by the sort). -/
def queryKD (colors : List RGBq) (c : RGBq) (k : ℕ) : List (ℕ × ℚ) :=
  ((distList colors c).insertionSort (fun a b => a.2 ≤ b.2)).take (min k colors.length)

lemma sqDist_self (a : RGBq) : sqDist a a = 0 := by
  unfold sqDist; ring

lemma sqDist_nonneg (a b : RGBq) : 0 ≤ sqDist a b := by
  unfold sqDist; positivity

lemma sqDist_eq_zero_iff (a b : RGBq) : sqDist a b = 0 ↔ a = b := by
  obtain ⟨a1, a2, a3⟩ := a
  obtain ⟨b1, b2, b3⟩ := b
  unfold sqDist
  simp only [Prod.mk.injEq]
  constructor
  · intro h
    have h1 : (a1 - b1) ^ 2 = 0 := by
      nlinarith [sq_nonneg (a2 - b2), sq_nonneg (a3 - b3), sq_nonneg (a1 - b1)]
    have h2 : (a2 - b2) ^ 2 = 0 := by
      nlinarith [sq_nonneg (a2 - b2), sq_nonneg (a3 - b3), sq_nonneg (a1 - b1)]
    have h3 : (a3 - b3) ^ 2 = 0 := by
      nlinarith [sq_nonneg (a2 - b2), sq_nonneg (a3 - b3), sq_nonneg (a1 - b1)]
    refine ⟨?_, ?_, ?_⟩
    · exact sub_eq_zero.mp (pow_eq_zero_iff (two_ne_zero) |>.mp h1)
    · exact sub_eq_zero.mp (pow_eq_zero_iff (two_ne_zero) |>.mp h2)
    · exact sub_eq_zero.mp (pow_eq_zero_iff (two_ne_zero) |>.mp h3)
  · rintro ⟨rfl, rfl, rfl⟩; ring

lemma mem_distList {colors : List RGBq} {c : RGBq} {p : ℕ × ℚ} :
    p ∈ distList colors c ↔
      p.1 < colors.length ∧ p.2 = sqDist (colors.getD p.1 (0, 0, 0)) c := by
  obtain ⟨j, d⟩ := p
  simp only [distList, List.mem_map, List.mem_range, Prod.mk.injEq]
  constructor
  · rintro ⟨j', hj', rfl, rfl⟩
    exact ⟨hj', rfl⟩
  · rintro ⟨hj, rfl⟩
    exact ⟨j, hj, rfl, rfl⟩

lemma distList_map_fst (colors : List RGBq) (c : RGBq) :
    (distList colors c).map Prod.fst = List.range colors.length := by
  simp [distList, List.map_map, Function.comp_def]

lemma length_distList (colors : List RGBq) (c : RGBq) :
    (distList colors c).length = colors.length := by
  simp [distList]

lemma insertionSortQ_sorted (l : List (ℕ × ℚ)) :
    (l.insertionSort (fun a b => a.2 ≤ b.2)).Pairwise (fun a b => a.2 ≤ b.2) := by
  haveI : IsTotal (ℕ × ℚ) (fun a b : ℕ × ℚ => a.2 ≤ b.2) :=
    ⟨fun a b => le_total a.2 b.2⟩
  haveI : IsTrans (ℕ × ℚ) (fun a b : ℕ × ℚ => a.2 ≤ b.2) :=
    ⟨fun a b c hab hbc => le_trans hab hbc⟩
  exact List.sorted_insertionSort _ l

lemma length_queryKD (colors : List RGBq) (c : RGBq) (k : ℕ) :
    (queryKD colors c k).length = min k colors.length := by
  unfold queryKD
  rw [List.length_take, (List.perm_insertionSort _ _).length_eq, length_distList]
  omega

lemma mem_of_mem_queryKD {colors : List RGBq} {c : RGBq} {k : ℕ} {p : ℕ × ℚ}
    (hp : p ∈ queryKD colors c k) : p ∈ distList colors c := by
  have h1 : p ∈ (distList colors c).insertionSort (fun a b => a.2 ≤ b.2) :=
    (List.take_sublist _ _).subset hp
  exact ((List.perm_insertionSort _ _).mem_iff).mp h1

lemma queryKD_pairwise (colors : List RGBq) (c : RGBq) (k : ℕ) :
    (queryKD colors c k).Pairwise (fun a b => a.2 ≤ b.2) :=
  (insertionSortQ_sorted _).sublist (List.take_sublist _ _)

lemma queryKD_fst_nodup (colors : List RGBq) (c : RGBq) (k : ℕ) :
    ((queryKD colors c k).map Prod.fst).Nodup := by
  have h0 : ((distList colors c).map Prod.fst).Nodup := by
    rw [distList_map_fst]; exact List.nodup_range _
  have h1 : (distList colors c).Pairwise (fun a b : ℕ × ℚ => a.1 ≠ b.1) :=
    List.pairwise_map.mp h0
  have h2 : (List.insertionSort (fun a b => a.2 ≤ b.2)
      (distList colors c)).Pairwise (fun a b : ℕ × ℚ => a.1 ≠ b.1) :=
    ((List.perm_insertionSort _ _).pairwise_iff (fun hab => hab.symm)).mpr h1
  exact List.pairwise_map.mpr (h2.sublist (List.take_sublist _ _))

/-- Claim C8: A ColorIndex query with k = 1 on a color equal to exactly one
tile's average color returns that tile's index with distance 0; in general
a query returns `min k (tile count)` results (k clamped to the tile count)
sorted by ascending distance, and every returned distance is at most every
omitted distance (nearest-first). -/
theorem queryKD_exact_match_and_knn (colors : List RGBq) (c : RGBq) (i : ℕ)
    (hi : i < colors.length)
    (hc : colors.getD i (0, 0, 0) = c)
    (huniq : ∀ j, j < colors.length → j ≠ i → colors.getD j (0, 0, 0) ≠ c) :
    queryKD colors c 1 = [(i, (0 : ℚ))] ∧
    (∀ (d : RGBq) (k : ℕ), (queryKD colors d k).length = min k colors.length) ∧
    (∀ (d : RGBq) (k : ℕ),
       (queryKD colors d k).Pairwise (fun a b => a.2 ≤ b.2)) ∧
    (∀ (d : RGBq) (k : ℕ) (p q : ℕ × ℚ), p ∈ queryKD colors d k →
       q ∈ distList colors d → q ∉ queryKD colors d k → p.2 ≤ q.2) := by
  refine ⟨?_, fun d k => length_queryKD colors d k,
    fun d k => queryKD_pairwise colors d k, ?_⟩
  · have hn : 1 ≤ colors.length := Nat.lt_of_le_of_lt (Nat.zero_le i) hi
    have hslen : (List.insertionSort (fun a b => a.2 ≤ b.2)
        (distList colors c)).length = colors.length := by
      rw [(List.perm_insertionSort _ _).length_eq, length_distList]
    obtain ⟨hd, tl, hcons⟩ : ∃ hd tl,
        (distList colors c).insertionSort (fun a b => a.2 ≤ b.2) = hd :: tl := by
      cases hflat : (distList colors c).insertionSort (fun a b => a.2 ≤ b.2) with
      | nil => rw [hflat] at hslen; simp at hslen; omega
      | cons a t => exact ⟨a, t, rfl⟩
    have hhdmem : hd ∈ distList colors c := by
      refine (List.perm_insertionSort (fun a b : ℕ × ℚ => a.2 ≤ b.2)
        (distList colors c)).mem_iff.mp ?_
      rw [hcons]; exact List.mem_cons_self _ _
    obtain ⟨hdlt, hdeq⟩ := mem_distList.mp hhdmem
    have hi0 : ((i, (0 : ℚ)) : ℕ × ℚ) ∈ distList colors c :=
      mem_distList.mpr ⟨hi, by rw [hc]; exact (sqDist_self c).symm⟩
    have his : ((i, (0 : ℚ)) : ℕ × ℚ) ∈
        (distList colors c).insertionSort (fun a b => a.2 ≤ b.2) :=
      (List.perm_insertionSort _ _).mem_iff.mpr hi0
    have hsorted := insertionSortQ_sorted (distList colors c)
    have hhd2le : hd.2 ≤ 0 := by
      rw [hcons] at his hsorted
      rcases List.mem_cons.mp his with h | h
      · rw [← h]
      · exact (List.pairwise_cons.mp hsorted).1 _ h
    have hhd2 : hd.2 = 0 :=
      le_antisymm hhd2le (hdeq ▸ sqDist_nonneg _ _)
    have hhdc : colors.getD hd.1 (0, 0, 0) = c :=
      (sqDist_eq_zero_iff _ _).mp (hdeq ▸ hhd2)
    have hhd1 : hd.1 = i := by
      by_contra hne
      exact huniq hd.1 hdlt hne hhdc
    have hhd : hd = (i, (0 : ℚ)) := by
      rw [← hhd1, ← hhd2]
    show ((List.insertionSort (fun a b => a.2 ≤ b.2)
        (distList colors c)).take (min 1 colors.length)) = [(i, (0 : ℚ))]
    rw [min_eq_left hn, hcons, List.take_succ_cons, List.take_zero, hhd]
  · intro d k p q hp hq hqn
    have hunfold : queryKD colors d k =
        ((distList colors d).insertionSort (fun a b => a.2 ≤ b.2)).take
          (min k colors.length) := rfl
    rw [hunfold] at hp hqn
    have hqs : q ∈ (distList colors d).insertionSort (fun a b => a.2 ≤ b.2) :=
      (List.perm_insertionSort _ _).mem_iff.mpr hq
    rw [← List.take_append_drop (min k colors.length)
        ((distList colors d).insertionSort (fun a b => a.2 ≤ b.2))] at hqs
    rcases List.mem_append.mp hqs with h | h
    · exact absurd h hqn
    · have hsorted := insertionSortQ_sorted (distList colors d)
      rw [← List.take_append_drop (min k colors.length)
          ((distList colors d).insertionSort (fun a b => a.2 ≤ b.2))] at hsorted
      exact (List.pairwise_append.mp hsorted).2.2 p hp q h

/-- Witness for C8 over two tiles with distinct average colors. -/
theorem queryKD_exact_match_and_knn_witness :
    1 < ([((0 : ℚ), (0 : ℚ), (0 : ℚ)), ((10 : ℚ), (0 : ℚ), (0 : ℚ))] : List RGBq).length ∧
    ([((0 : ℚ), (0 : ℚ), (0 : ℚ)), ((10 : ℚ), (0 : ℚ), (0 : ℚ))] : List RGBq).getD 1 (0, 0, 0) =
      ((10 : ℚ), (0 : ℚ), (0 : ℚ)) ∧
    (queryKD [((0 : ℚ), (0 : ℚ), (0 : ℚ)), ((10 : ℚ), (0 : ℚ), (0 : ℚ))]
        ((10 : ℚ), (0 : ℚ), (0 : ℚ)) 1 = [(1, (0 : ℚ))] ∧
     (∀ (d : RGBq) (k : ℕ),
        (queryKD [((0 : ℚ), (0 : ℚ), (0 : ℚ)), ((10 : ℚ), (0 : ℚ), (0 : ℚ))] d k).length =
          min k ([((0 : ℚ), (0 : ℚ), (0 : ℚ)), ((10 : ℚ), (0 : ℚ), (0 : ℚ))] : List RGBq).length) ∧
     (∀ (d : RGBq) (k : ℕ),
        (queryKD [((0 : ℚ), (0 : ℚ), (0 : ℚ)), ((10 : ℚ), (0 : ℚ), (0 : ℚ))] d k).Pairwise
          (fun a b => a.2 ≤ b.2)) ∧
     (∀ (d : RGBq) (k : ℕ) (p q : ℕ × ℚ),
        p ∈ queryKD [((0 : ℚ), (0 : ℚ), (0 : ℚ)), ((10 : ℚ), (0 : ℚ), (0 : ℚ))] d k →
        q ∈ distList [((0 : ℚ), (0 : ℚ), (0 : ℚ)), ((10 : ℚ), (0 : ℚ), (0 : ℚ))] d →
        q ∉ queryKD [((0 : ℚ), (0 : ℚ), (0 : ℚ)), ((10 : ℚ), (0 : ℚ), (0 : ℚ))] d k →
        p.2 ≤ q.2)) :=
  ⟨by decide, by decide,
   queryKD_exact_match_and_knn
     [((0 : ℚ), (0 : ℚ), (0 : ℚ)), ((10 : ℚ), (0 : ℚ), (0 : ℚ))]
     ((10 : ℚ), (0 : ℚ), (0 : ℚ)) 1 (by decide) (by decide) (by decide)⟩

/-- One cell's choice in `make_mosaic` (lines 148–162): given the candidate
tile indices returned by the KDTree query and the tile index chosen for the
previous cell (`last_idx`, `-1` before the first cell), apply the
anti-repeat filter and pick.  `random.choice` is modelled by the explicit
picker function `pick`, constrained elsewhere only to return an element of
its argument list. -/
def antiRepeatFilter (candidates : List ℕ) (last : ℤ) : List ℕ :=
  candidates.filter (fun (i : ℕ) => ((i : ℤ) != last))

def selectCell (pick : List ℕ → ℕ) (candidates : List ℕ) (last : ℤ) : ℕ :=
  if 1 < candidates.length then
    if (antiRepeatFilter candidates last).isEmpty then pick candidates
    else pick (antiRepeatFilter candidates last)
  else candidates.headD 0

/-- The per-cell selection loop of `make_mosaic` over the row-major list of
cell target colors, threading `last_idx` and a step counter that feeds the
picker (so every sequence of `random.choice` outcomes is representable by
some `pick`). -/
def selectGo (pick : ℕ → List ℕ → ℕ) (colors : List RGBq) (k : ℕ) :
    List RGBq → ℤ → ℕ → List ℕ
  | [], _, _ => []
  | c :: rest, last, step =>
    let chosen := selectCell (pick step) ((queryKD colors c k).map Prod.fst) last
    chosen :: selectGo pick colors k rest (chosen : ℤ) (step + 1)

/-- `make_mosaic`'s full tile selection: `k = min(top_k, n_tiles)` and
`last_idx` starts at `-1`. -/
def selectLoop (pick : ℕ → List ℕ → ℕ) (colors : List RGBq) (topk : ℕ)
    (targets : List RGBq) : List ℕ :=
  selectGo pick colors (min topk colors.length) targets (-1) 0

lemma selectCell_mem (pick : List ℕ → ℕ) (candidates : List ℕ) (last : ℤ)
    (hpick : ∀ l, l ≠ [] → pick l ∈ l) (hne : candidates ≠ []) :
    selectCell pick candidates last ∈ candidates := by
  unfold selectCell
  split_ifs with h1 h2
  · exact hpick _ hne
  · have hne2 : antiRepeatFilter candidates last ≠ [] := by
      intro hnil
      rw [hnil] at h2
      simp at h2
    exact List.mem_of_mem_filter (hpick _ hne2)
  · cases candidates with
    | nil => exact absurd rfl hne
    | cons a t => exact List.mem_cons_self _ _

lemma selectCell_ne_last (pick : List ℕ → ℕ) (candidates : List ℕ) (lastn : ℕ)
    (hpick : ∀ l, l ≠ [] → pick l ∈ l)
    (hnodup : candidates.Nodup) (hlen : 1 < candidates.length) :
    selectCell pick candidates (lastn : ℤ) ≠ lastn := by
  have hfne : antiRepeatFilter candidates (lastn : ℤ) ≠ [] := by
    intro hempty
    unfold antiRepeatFilter at hempty
    have hall : ∀ x ∈ candidates, x = lastn := by
      intro x hx
      have hx' := List.filter_eq_nil_iff.mp hempty x hx
      simpa using hx'
    obtain ⟨a, t, rfl⟩ : ∃ a t, candidates = a :: t := by
      cases candidates with
      | nil => simp at hlen
      | cons a t => exact ⟨a, t, rfl⟩
    cases t with
    | nil => simp at hlen
    | cons b t2 =>
      have ha := hall a (List.mem_cons_self _ _)
      have hb := hall b (List.mem_cons_of_mem _ (List.mem_cons_self _ _))
      have hnotin : a ∉ b :: t2 := (List.nodup_cons.mp hnodup).1
      exact hnotin (by rw [ha, ← hb]; exact List.mem_cons_self _ _)
  unfold selectCell
  rw [if_pos hlen, if_neg (by simpa [List.isEmpty_iff] using hfne)]
  have hm := hpick _ hfne
  have hprop : ((pick (antiRepeatFilter candidates (lastn : ℤ))) : ℤ) ≠
      (lastn : ℤ) := by
    have hf := List.of_mem_filter (p := fun (i : ℕ) => ((i : ℤ) != (lastn : ℤ))) hm
    simpa using hf
  intro heq
  exact hprop (by exact_mod_cast heq)

lemma queryKD_fst_lt {colors : List RGBq} {c : RGBq} {k x : ℕ}
    (hx : x ∈ (queryKD colors c k).map Prod.fst) : x < colors.length := by
  obtain ⟨p, hp, rfl⟩ := List.mem_map.mp hx
  exact (mem_distList.mp (mem_of_mem_queryKD hp)).1

lemma length_queryKD_fst (colors : List RGBq) (c : RGBq) (k : ℕ) :
    ((queryKD colors c k).map Prod.fst).length = min k colors.length := by
  rw [List.length_map, length_queryKD]

lemma selectGo_length (pick : ℕ → List ℕ → ℕ) (colors : List RGBq) (k : ℕ)
    (targets : List RGBq) :
    ∀ (last : ℤ) (step : ℕ),
      (selectGo pick colors k targets last step).length = targets.length := by
  induction targets with
  | nil => intro last step; rfl
  | cons c rest ih => intro last step; simp [selectGo, ih]

lemma selectGo_ne_prev (pick : ℕ → List ℕ → ℕ) (colors : List RGBq) (k : ℕ)
    (hpick : ∀ n l, l ≠ [] → pick n l ∈ l) (targets : List RGBq) :
    ∀ (last : ℤ) (step j : ℕ),
      j + 1 < targets.length →
      1 < ((queryKD colors (targets.getD (j + 1) (0, 0, 0)) k).map Prod.fst).length →
      (selectGo pick colors k targets last step).getD (j + 1) 0 ≠
        (selectGo pick colors k targets last step).getD j 0 := by
  induction targets with
  | nil => intro last step j h; simp at h
  | cons c rest ih =>
    intro last step j hlen hsize
    cases j with
    | zero =>
      cases rest with
      | nil => simp at hlen
      | cons c2 rest2 =>
        have hsize2 : 1 < ((queryKD colors c2 k).map Prod.fst).length := by
          simpa using hsize
        simp only [selectGo, List.getD_cons_succ, List.getD_cons_zero]
        exact selectCell_ne_last (pick (step + 1)) _ _ (hpick (step + 1))
          (queryKD_fst_nodup colors c2 k) hsize2
    | succ j' =>
      have hrec := ih ((selectCell (pick step) ((queryKD colors c k).map Prod.fst)
          last : ℕ) : ℤ) (step + 1) j' (by simpa using hlen) (by simpa using hsize)
      simpa [selectGo, List.getD_cons_succ] using hrec

/-- Claim C1: Over a color index built on at least two tiles, the tile chosen
for a cell always differs from the tile chosen for the immediately
preceding cell in row-major scan order (the single rolling `last_idx`
carries across row boundaries), whenever the queried candidate set for the
cell has more than one element. -/
theorem selectLoop_no_consecutive_repeat (pick : ℕ → List ℕ → ℕ)
    (colors : List RGBq) (topk : ℕ) (targets : List RGBq)
    (hpick : ∀ n l, l ≠ [] → pick n l ∈ l)
    (htiles : 2 ≤ colors.length)
    (j : ℕ) (hj : j + 1 < targets.length)
    (hsize : 1 < ((queryKD colors (targets.getD (j + 1) (0, 0, 0))
        (min topk colors.length)).map Prod.fst).length) :
    (selectLoop pick colors topk targets).getD (j + 1) 0 ≠
      (selectLoop pick colors topk targets).getD j 0 :=
  selectGo_ne_prev pick colors (min topk colors.length) hpick targets (-1) 0 j hj hsize

/-- Witness for C1: two black-and-white tiles, two cells with the same
target color, a deterministic head-picking random source. -/
theorem selectLoop_no_consecutive_repeat_witness :
    (∀ (n : ℕ) (l : List ℕ), l ≠ [] → (fun (_ : ℕ) (l2 : List ℕ) => l2.headD 0) n l ∈ l) ∧
    2 ≤ ([((0 : ℚ), (0 : ℚ), (0 : ℚ)), ((1 : ℚ), (1 : ℚ), (1 : ℚ))] : List RGBq).length ∧
    0 + 1 < ([((0 : ℚ), (0 : ℚ), (0 : ℚ)), ((0 : ℚ), (0 : ℚ), (0 : ℚ))] : List RGBq).length ∧
    1 < ((queryKD [((0 : ℚ), (0 : ℚ), (0 : ℚ)), ((1 : ℚ), (1 : ℚ), (1 : ℚ))]
        (([((0 : ℚ), (0 : ℚ), (0 : ℚ)), ((0 : ℚ), (0 : ℚ), (0 : ℚ))] : List RGBq).getD
          (0 + 1) (0, 0, 0))
        (min 2 ([((0 : ℚ), (0 : ℚ), (0 : ℚ)), ((1 : ℚ), (1 : ℚ), (1 : ℚ))] : List RGBq).length)).map
        Prod.fst).length ∧
    (selectLoop (fun (_ : ℕ) (l2 : List ℕ) => l2.headD 0)
        [((0 : ℚ), (0 : ℚ), (0 : ℚ)), ((1 : ℚ), (1 : ℚ), (1 : ℚ))] 2
        [((0 : ℚ), (0 : ℚ), (0 : ℚ)), ((0 : ℚ), (0 : ℚ), (0 : ℚ))]).getD (0 + 1) 0 ≠
      (selectLoop (fun (_ : ℕ) (l2 : List ℕ) => l2.headD 0)
        [((0 : ℚ), (0 : ℚ), (0 : ℚ)), ((1 : ℚ), (1 : ℚ), (1 : ℚ))] 2
        [((0 : ℚ), (0 : ℚ), (0 : ℚ)), ((0 : ℚ), (0 : ℚ), (0 : ℚ))]).getD 0 0 :=
  have hpick : ∀ (n : ℕ) (l : List ℕ), l ≠ [] →
      (fun (_ : ℕ) (l2 : List ℕ) => l2.headD 0) n l ∈ l := by
    intro n l hl
    cases l with
    | nil => exact absurd rfl hl
    | cons a t => exact List.mem_cons_self _ _
  ⟨hpick, by decide, by decide, by rw [length_queryKD_fst]; decide,
   selectLoop_no_consecutive_repeat (fun (_ : ℕ) (l2 : List ℕ) => l2.headD 0)
     [((0 : ℚ), (0 : ℚ), (0 : ℚ)), ((1 : ℚ), (1 : ℚ), (1 : ℚ))] 2
     [((0 : ℚ), (0 : ℚ), (0 : ℚ)), ((0 : ℚ), (0 : ℚ), (0 : ℚ))]
     hpick (by decide) 0 (by decide) (by rw [length_queryKD_fst]; decide)⟩

lemma selectGo_k1 (pick : ℕ → List ℕ → ℕ) (colors : List RGBq) (k : ℕ)
    (hk : ∀ c : RGBq, ¬ 1 < ((queryKD colors c k).map Prod.fst).length)
    (targets : List RGBq) :
    ∀ (last : ℤ) (step j : ℕ), j < targets.length →
      (selectGo pick colors k targets last step).getD j 0 =
        ((queryKD colors (targets.getD j (0, 0, 0)) k).map Prod.fst).headD 0 := by
  induction targets with
  | nil => intro last step j h; simp at h
  | cons c rest ih =>
    intro last step j hj
    cases j with
    | zero =>
      simp only [selectGo, List.getD_cons_zero, selectCell, if_neg (hk c)]
    | succ j' =>
      have hrec := ih ((selectCell (pick step) ((queryKD colors c k).map Prod.fst)
          last : ℕ) : ℤ) (step + 1) j' (by simpa using hj)
      simpa [selectGo, List.getD_cons_succ] using hrec

/-- Claim C7: When `k = min(top_k, n_tiles)` resolves to 1, no anti-repeat
filtering happens: every cell is assigned the sole returned candidate, for
every random source and regardless of the previous cell's choice. -/
theorem selectLoop_k1_sole_candidate (pick : ℕ → List ℕ → ℕ)
    (colors : List RGBq) (topk : ℕ) (targets : List RGBq)
    (hk : min topk colors.length = 1) (j : ℕ) (hj : j < targets.length) :
    (selectLoop pick colors topk targets).getD j 0 =
      ((queryKD colors (targets.getD j (0, 0, 0)) (min topk colors.length)).map
        Prod.fst).headD 0 := by
  have hlen : ∀ c : RGBq,
      ¬ 1 < ((queryKD colors c (min topk colors.length)).map Prod.fst).length := by
    intro c
    rw [length_queryKD_fst]
    omega
  exact selectGo_k1 pick colors (min topk colors.length) hlen targets (-1) 0 j hj

/-- Witness for C7: a single tile, so k resolves to 1 and both cells get
tile 0 (consecutive repetition included). -/
theorem selectLoop_k1_sole_candidate_witness :
    min TOP_K ([((5 : ℚ), (5 : ℚ), (5 : ℚ))] : List RGBq).length = 1 ∧
    1 < ([((0 : ℚ), (0 : ℚ), (0 : ℚ)), ((9 : ℚ), (9 : ℚ), (9 : ℚ))] : List RGBq).length ∧
    (selectLoop (fun (_ : ℕ) (l2 : List ℕ) => l2.headD 0)
        [((5 : ℚ), (5 : ℚ), (5 : ℚ))] TOP_K
        [((0 : ℚ), (0 : ℚ), (0 : ℚ)), ((9 : ℚ), (9 : ℚ), (9 : ℚ))]).getD 1 0 =
      ((queryKD [((5 : ℚ), (5 : ℚ), (5 : ℚ))]
          (([((0 : ℚ), (0 : ℚ), (0 : ℚ)), ((9 : ℚ), (9 : ℚ), (9 : ℚ))] : List RGBq).getD
            1 (0, 0, 0))
          (min TOP_K ([((5 : ℚ), (5 : ℚ), (5 : ℚ))] : List RGBq).length)).map
        Prod.fst).headD 0 :=
  ⟨by decide, by decide,
   selectLoop_k1_sole_candidate (fun (_ : ℕ) (l2 : List ℕ) => l2.headD 0)
     [((5 : ℚ), (5 : ℚ), (5 : ℚ))] TOP_K
     [((0 : ℚ), (0 : ℚ), (0 : ℚ)), ((9 : ℚ), (9 : ℚ), (9 : ℚ))]
     (by decide) 1 (by decide)⟩

lemma selectGo_lt (pick : ℕ → List ℕ → ℕ) (colors : List RGBq) (k : ℕ)
    (hpick : ∀ n l, l ≠ [] → pick n l ∈ l)
    (hk : ∀ c : RGBq, (queryKD colors c k).map Prod.fst ≠ [])
    (targets : List RGBq) :
    ∀ (last : ℤ) (step j : ℕ), j < targets.length →
      (selectGo pick colors k targets last step).getD j 0 < colors.length := by
  induction targets with
  | nil => intro last step j h; simp at h
  | cons c rest ih =>
    intro last step j hj
    cases j with
    | zero =>
      simp only [selectGo, List.getD_cons_zero]
      exact queryKD_fst_lt
        (selectCell_mem (pick step) _ last (hpick step) (hk c))
    | succ j' =>
      have hrec := ih ((selectCell (pick step) ((queryKD colors c k).map Prod.fst)
          last : ℕ) : ℤ) (step + 1) j' (by simpa using hj)
      simpa [selectGo, List.getD_cons_succ] using hrec

/-- Claim C9: For a non-empty tile collection (and positive top-K), the per-cell
selection is total: it produces one tile index per cell, and every produced
index is a valid tile index in `[0, tileCount)` — the unfiltered-candidate
fallback keeps the choice well-defined even when the anti-repeat filter
would empty the candidate list. -/
theorem selectLoop_total (pick : ℕ → List ℕ → ℕ) (colors : List RGBq)
    (topk : ℕ) (targets : List RGBq)
    (hpick : ∀ n l, l ≠ [] → pick n l ∈ l)
    (hcol : colors ≠ []) (htk : 1 ≤ topk) :
    (selectLoop pick colors topk targets).length = targets.length ∧
    ∀ j, j < targets.length →
      (selectLoop pick colors topk targets).getD j 0 < colors.length := by
  have hne : ∀ c : RGBq,
      (queryKD colors c (min topk colors.length)).map Prod.fst ≠ [] := by
    intro c
    have h1 : 1 ≤ colors.length := by
      cases colors with
      | nil => exact absurd rfl hcol
      | cons a t => simp
    have h2 : ((queryKD colors c (min topk colors.length)).map Prod.fst).length =
        min (min topk colors.length) colors.length := length_queryKD_fst _ _ _
    intro hnil
    rw [hnil] at h2
    simp at h2
    omega
  exact ⟨selectGo_length pick colors (min topk colors.length) targets (-1) 0,
    fun j hj => selectGo_lt pick colors (min topk colors.length) hpick hne
      targets (-1) 0 j hj⟩

/-- Witness for C9: two tiles, three cells. -/
theorem selectLoop_total_witness :
    (([((0 : ℚ), (0 : ℚ), (0 : ℚ)), ((1 : ℚ), (1 : ℚ), (1 : ℚ))] : List RGBq) ≠ []) ∧
    1 ≤ TOP_K ∧
    ((selectLoop (fun (_ : ℕ) (l2 : List ℕ) => l2.headD 0)
        [((0 : ℚ), (0 : ℚ), (0 : ℚ)), ((1 : ℚ), (1 : ℚ), (1 : ℚ))] TOP_K
        [((0 : ℚ), (0 : ℚ), (0 : ℚ)), ((1 : ℚ), (0 : ℚ), (0 : ℚ)), ((1 : ℚ), (1 : ℚ), (1 : ℚ))]).length =
      ([((0 : ℚ), (0 : ℚ), (0 : ℚ)), ((1 : ℚ), (0 : ℚ), (0 : ℚ)), ((1 : ℚ), (1 : ℚ), (1 : ℚ))] : List RGBq).length ∧
     ∀ j, j < ([((0 : ℚ), (0 : ℚ), (0 : ℚ)), ((1 : ℚ), (0 : ℚ), (0 : ℚ)), ((1 : ℚ), (1 : ℚ), (1 : ℚ))] : List RGBq).length →
       (selectLoop (fun (_ : ℕ) (l2 : List ℕ) => l2.headD 0)
          [((0 : ℚ), (0 : ℚ), (0 : ℚ)), ((1 : ℚ), (1 : ℚ), (1 : ℚ))] TOP_K
          [((0 : ℚ), (0 : ℚ), (0 : ℚ)), ((1 : ℚ), (0 : ℚ), (0 : ℚ)), ((1 : ℚ), (1 : ℚ), (1 : ℚ))]).getD j 0 <
        ([((0 : ℚ), (0 : ℚ), (0 : ℚ)), ((1 : ℚ), (1 : ℚ), (1 : ℚ))] : List RGBq).length) :=
  have hpick : ∀ (n : ℕ) (l : List ℕ), l ≠ [] →
      (fun (_ : ℕ) (l2 : List ℕ) => l2.headD 0) n l ∈ l := by
    intro n l hl
    cases l with
    | nil => exact absurd rfl hl
    | cons a t => exact List.mem_cons_self _ _
  ⟨by decide, by decide,
   selectLoop_total (fun (_ : ℕ) (l2 : List ℕ) => l2.headD 0)
     [((0 : ℚ), (0 : ℚ), (0 : ℚ)), ((1 : ℚ), (1 : ℚ), (1 : ℚ))] TOP_K
     [((0 : ℚ), (0 : ℚ), (0 : ℚ)), ((1 : ℚ), (0 : ℚ), (0 : ℚ)), ((1 : ℚ), (1 : ℚ), (1 : ℚ))]
     hpick (by decide) (by decide)⟩

/-- An in-memory RGB image: dimensions plus a total pixel function.
Channel values are naturals; the 8-bit range of PIL images is captured by
`validImg` where it matters. -/
structure Img where
  width : ℕ
  height : ℕ
  pix : ℕ → ℕ → ℕ × ℕ × ℕ

/-- `Image.new("RGB", (w, h))`: a blank (black) canvas. -/
def imageNew (w h : ℕ) : Img :=
  ⟨w, h, fun _ _ => (0, 0, 0)⟩

/-- `canvas.paste(tile, (ox, oy))`: pixels inside the pasted rectangle
(clipped to the canvas bounds) come from the tile, all others are
unchanged. -/
def paste (canvas tile : Img) (ox oy : ℕ) : Img :=
  { canvas with pix := fun x y =>
      if ox ≤ x ∧ x < ox + tile.width ∧ oy ≤ y ∧ y < oy + tile.height ∧
         x < canvas.width ∧ y < canvas.height
      then tile.pix (x - ox) (y - oy)
      else canvas.pix x y }

/-- The row-major list of grid cells `(x, y)` traversed by `make_mosaic`'s
double loop (`for y in range(rows): for x in range(cols)`). -/
def cellList (cols rows : ℕ) : List (ℕ × ℕ) :=
  (List.range rows).flatMap (fun y => (List.range cols).map (fun x => (x, y)))

/-- The canvas-assembly part of `make_mosaic`: starting from a blank canvas
of `(cols * tile_w, rows * tile_h)` pixels, paste the tile selected for
each cell (`tileAt`, abstracting `resized_tiles[chosen]`) at origin
`(x * tile_w, y * tile_h)`, in row-major order. -/
def renderCanvas (tileAt : ℕ × ℕ → Img) (cols rows tw th : ℕ) : Img :=
  (cellList cols rows).foldl
    (fun cv cell => paste cv (tileAt cell) (cell.1 * tw) (cell.2 * th))
    (imageNew (cols * tw) (rows * th))

lemma Img.ext' {a b : Img} (hw : a.width = b.width) (hh : a.height = b.height)
    (hp : a.pix = b.pix) : a = b := by
  cases a; cases b; simp_all

lemma paste_width (canvas tile : Img) (ox oy : ℕ) :
    (paste canvas tile ox oy).width = canvas.width := rfl

lemma paste_height (canvas tile : Img) (ox oy : ℕ) :
    (paste canvas tile ox oy).height = canvas.height := rfl

lemma paste_pix_in (canvas tile : Img) (ox oy px py : ℕ)
    (h : ox ≤ px ∧ px < ox + tile.width ∧ oy ≤ py ∧ py < oy + tile.height ∧
      px < canvas.width ∧ py < canvas.height) :
    (paste canvas tile ox oy).pix px py = tile.pix (px - ox) (py - oy) := by
  unfold paste
  exact if_pos h

lemma paste_pix_out (canvas tile : Img) (ox oy px py : ℕ)
    (h : ¬ (ox ≤ px ∧ px < ox + tile.width ∧ oy ≤ py ∧ py < oy + tile.height)) :
    (paste canvas tile ox oy).pix px py = canvas.pix px py := by
  unfold paste
  exact if_neg (fun hcond => h ⟨hcond.1, hcond.2.1, hcond.2.2.1, hcond.2.2.2.1⟩)

lemma mem_cellList {cols rows : ℕ} {p : ℕ × ℕ} :
    p ∈ cellList cols rows ↔ p.1 < cols ∧ p.2 < rows := by
  obtain ⟨x, y⟩ := p
  simp only [cellList, List.mem_flatMap, List.mem_map, List.mem_range, Prod.mk.injEq]
  constructor
  · rintro ⟨y', hy', x', hx', rfl, rfl⟩
    exact ⟨hx', hy'⟩
  · rintro ⟨hx, hy⟩
    exact ⟨y, hy, x, hx, rfl, rfl⟩

lemma cellList_nodup (cols rows : ℕ) : (cellList cols rows).Nodup := by
  rw [cellList, List.nodup_flatMap]
  constructor
  · intro y hy
    exact (List.nodup_range cols).map (fun a b hab => by
      simpa using congrArg Prod.fst hab)
  · refine (List.nodup_range rows).imp ?_
    intro a b hab
    intro p hpa hpb
    obtain ⟨xa, hxa, rfl⟩ := List.mem_map.mp hpa
    obtain ⟨xb, hxb, heq⟩ := List.mem_map.mp hpb
    exact hab (by simpa using (congrArg Prod.snd heq).symm)

lemma foldl_paste_width (tileAt : ℕ × ℕ → Img) (tw th : ℕ) :
    ∀ (l : List (ℕ × ℕ)) (init : Img),
      (l.foldl (fun cv cell => paste cv (tileAt cell) (cell.1 * tw) (cell.2 * th))
        init).width = init.width := by
  intro l
  induction l with
  | nil => intro init; rfl
  | cons a t ih =>
    intro init
    rw [List.foldl_cons, ih]
    rfl

lemma foldl_paste_height (tileAt : ℕ × ℕ → Img) (tw th : ℕ) :
    ∀ (l : List (ℕ × ℕ)) (init : Img),
      (l.foldl (fun cv cell => paste cv (tileAt cell) (cell.1 * tw) (cell.2 * th))
        init).height = init.height := by
  intro l
  induction l with
  | nil => intro init; rfl
  | cons a t ih =>
    intro init
    rw [List.foldl_cons, ih]
    rfl

lemma foldl_paste_pix_out (tileAt : ℕ × ℕ → Img) (tw th px py : ℕ) :
    ∀ (l : List (ℕ × ℕ)) (init : Img),
      (∀ cell ∈ l, ¬ (cell.1 * tw ≤ px ∧ px < cell.1 * tw + (tileAt cell).width ∧
        cell.2 * th ≤ py ∧ py < cell.2 * th + (tileAt cell).height)) →
      (l.foldl (fun cv cell => paste cv (tileAt cell) (cell.1 * tw) (cell.2 * th))
        init).pix px py = init.pix px py := by
  intro l
  induction l with
  | nil => intro init _; rfl
  | cons a t ih =>
    intro init h
    rw [List.foldl_cons, ih _ (fun cell hc => h cell (List.mem_cons_of_mem _ hc)),
      paste_pix_out _ _ _ _ _ _ (h a (List.mem_cons_self _ _))]

lemma cell_rect_unique {tw th cx cy cx' cy' dx dy : ℕ}
    (hdx : dx < tw) (hdy : dy < th)
    (h1 : cx' * tw ≤ cx * tw + dx) (h2 : cx * tw + dx < cx' * tw + tw)
    (h3 : cy' * th ≤ cy * th + dy) (h4 : cy * th + dy < cy' * th + th) :
    cx' = cx ∧ cy' = cy := by
  have e1 : (cx + 1) * tw = cx * tw + tw := by ring
  have e2 : (cx' + 1) * tw = cx' * tw + tw := by ring
  have e3 : (cy + 1) * th = cy * th + th := by ring
  have e4 : (cy' + 1) * th = cy' * th + th := by ring
  have hx1 : cx' * tw < (cx + 1) * tw := by omega
  have hx2 : cx * tw < (cx' + 1) * tw := by omega
  have hy1 : cy' * th < (cy + 1) * th := by omega
  have hy2 : cy * th < (cy' + 1) * th := by omega
  have c1 : cx' < cx + 1 := lt_of_mul_lt_mul_right hx1 (Nat.zero_le tw)
  have c2 : cx < cx' + 1 := lt_of_mul_lt_mul_right hx2 (Nat.zero_le tw)
  have c3 : cy' < cy + 1 := lt_of_mul_lt_mul_right hy1 (Nat.zero_le th)
  have c4 : cy < cy' + 1 := lt_of_mul_lt_mul_right hy2 (Nat.zero_le th)
  omega

lemma foldl_paste_pix (tileAt : ℕ × ℕ → Img) (cols rows tw th : ℕ)
    (hsize : ∀ cell : ℕ × ℕ, (tileAt cell).width = tw ∧ (tileAt cell).height = th)
    (cx cy dx dy : ℕ) (hcx : cx < cols) (hcy : cy < rows)
    (hdx : dx < tw) (hdy : dy < th) :
    ∀ (l : List (ℕ × ℕ)) (init : Img),
      init.width = cols * tw → init.height = rows * th →
      (cx, cy) ∈ l → l.Nodup →
      (l.foldl (fun cv cell => paste cv (tileAt cell) (cell.1 * tw) (cell.2 * th))
        init).pix (cx * tw + dx) (cy * th + dy) = (tileAt (cx, cy)).pix dx dy := by
  intro l
  induction l with
  | nil => intro init _ _ hmem _; simp at hmem
  | cons a t ih =>
    intro init hw hh hmem hnd
    rw [List.foldl_cons]
    by_cases ha : a = (cx, cy)
    · subst ha
      have hnotin : (cx, cy) ∉ t := (List.nodup_cons.mp hnd).1
      have hmiss : ∀ cell ∈ t, ¬ (cell.1 * tw ≤ cx * tw + dx ∧
          cx * tw + dx < cell.1 * tw + (tileAt cell).width ∧
          cell.2 * th ≤ cy * th + dy ∧
          cy * th + dy < cell.2 * th + (tileAt cell).height) := by
        intro cell hc hrect
        obtain ⟨u, v⟩ := cell
        obtain ⟨hsw, hsh⟩ := hsize (u, v)
        rw [hsw, hsh] at hrect
        obtain ⟨rfl, rfl⟩ : u = cx ∧ v = cy :=
          cell_rect_unique hdx hdy hrect.1 hrect.2.1 hrect.2.2.1 hrect.2.2.2
        exact hnotin hc
      rw [foldl_paste_pix_out tileAt tw th (cx * tw + dx) (cy * th + dy) t _ hmiss]
      obtain ⟨hsw, hsh⟩ := hsize (cx, cy)
      have hpx : cx * tw + dx < cols * tw := by
        have hb1 : (cx + 1) * tw ≤ cols * tw := Nat.mul_le_mul_right tw (by omega)
        have hb2 : (cx + 1) * tw = cx * tw + tw := by ring
        omega
      have hpy : cy * th + dy < rows * th := by
        have hb1 : (cy + 1) * th ≤ rows * th := Nat.mul_le_mul_right th (by omega)
        have hb2 : (cy + 1) * th = cy * th + th := by ring
        omega
      rw [paste_pix_in init (tileAt (cx, cy)) (cx * tw) (cy * th) _ _
        ⟨by omega, by rw [hsw]; omega, by omega, by rw [hsh]; omega,
         by rw [hw]; exact hpx, by rw [hh]; exact hpy⟩]
      have e1 : cx * tw + dx - cx * tw = dx := by omega
      have e2 : cy * th + dy - cy * th = dy := by omega
      rw [e1, e2]
    · have hmem' : (cx, cy) ∈ t := by
        rcases List.mem_cons.mp hmem with h | h
        · exact absurd h.symm ha
        · exact h
      exact ih (paste init (tileAt a) (a.1 * tw) (a.2 * th))
        (by rw [paste_width, hw]) (by rw [paste_height, hh]) hmem'
        (List.nodup_cons.mp hnd).2

/-- Claim C5: With tiles pre-normalized to `tile_w × tile_h` (as `build_kdtree`
guarantees via `fit_to_size`), the rendered canvas measures exactly
`(cols*tile_w, rows*tile_h)` pixels regardless of any native sizes, and
every cell's rectangle holds exactly its selected tile, pasted at origin
`(col*tile_w, row*tile_h)`. -/
theorem renderCanvas_size_and_origin (tileAt : ℕ × ℕ → Img)
    (cols rows tw th : ℕ)
    (hsize : ∀ cell : ℕ × ℕ, (tileAt cell).width = tw ∧ (tileAt cell).height = th) :
    (renderCanvas tileAt cols rows tw th).width = cols * tw ∧
    (renderCanvas tileAt cols rows tw th).height = rows * th ∧
    ∀ cx cy dx dy : ℕ, cx < cols → cy < rows → dx < tw → dy < th →
      (renderCanvas tileAt cols rows tw th).pix (cx * tw + dx) (cy * th + dy) =
        (tileAt (cx, cy)).pix dx dy := by
  refine ⟨?_, ?_, ?_⟩
  · unfold renderCanvas
    rw [foldl_paste_width]
    rfl
  · unfold renderCanvas
    rw [foldl_paste_height]
    rfl
  · intro cx cy dx dy hcx hcy hdx hdy
    exact foldl_paste_pix tileAt cols rows tw th hsize cx cy dx dy hcx hcy hdx hdy
      (cellList cols rows) (imageNew (cols * tw) (rows * th)) rfl rfl
      (mem_cellList.mpr ⟨hcx, hcy⟩) (cellList_nodup cols rows)

/-- Witness for C5: a 4×5 grid of 2×3 tiles. -/
theorem renderCanvas_size_and_origin_witness :
    (∀ cell : ℕ × ℕ, ((fun _ : ℕ × ℕ => imageNew 2 3) cell).width = 2 ∧
       ((fun _ : ℕ × ℕ => imageNew 2 3) cell).height = 3) ∧
    ((renderCanvas (fun _ : ℕ × ℕ => imageNew 2 3) 4 5 2 3).width = 4 * 2 ∧
     (renderCanvas (fun _ : ℕ × ℕ => imageNew 2 3) 4 5 2 3).height = 5 * 3 ∧
     ∀ cx cy dx dy : ℕ, cx < 4 → cy < 5 → dx < 2 → dy < 3 →
       (renderCanvas (fun _ : ℕ × ℕ => imageNew 2 3) 4 5 2 3).pix
           (cx * 2 + dx) (cy * 3 + dy) =
         ((fun _ : ℕ × ℕ => imageNew 2 3) (cx, cy)).pix dx dy) :=
  ⟨fun _ => ⟨rfl, rfl⟩,
   renderCanvas_size_and_origin (fun _ : ℕ × ℕ => imageNew 2 3) 4 5 2 3
     (fun _ => ⟨rfl, rfl⟩)⟩

/-- One channel of `Image.blend(im1, im2, alpha)`:
`(1 - alpha) * im1 + alpha * im2`, rounded to the nearest integer and
clipped to the 8-bit range. -/
def blendChannel (alpha : ℚ) (p q : ℕ) : ℕ :=
  min 255 (round ((1 - alpha) * (p : ℚ) + alpha * (q : ℚ))).toNat

/-- `Image.blend(im1, im2, alpha)` applied per pixel and channel (PIL
requires equal sizes; the result carries the first image's dimensions). -/
def blendImg (a b : Img) (alpha : ℚ) : Img :=
  ⟨a.width, a.height, fun x y =>
    (blendChannel alpha (a.pix x y).1 (b.pix x y).1,
     blendChannel alpha (a.pix x y).2.1 (b.pix x y).2.1,
     blendChannel alpha (a.pix x y).2.2 (b.pix x y).2.2)⟩

/-- 8-bit channel validity of an image, as holds for every decoded PIL
RGB image. -/
def validImg (im : Img) : Prop :=
  ∀ x y, (im.pix x y).1 ≤ 255 ∧ (im.pix x y).2.1 ≤ 255 ∧ (im.pix x y).2.2 ≤ 255

/-- `blend_to_image1_style(main_img, mosaic_img, cols, rows)` from
`mosaic.py`: resize the original to the mosaic's exact size, blend with the
automatic alpha, then apply the fixed unsharp mask.  `resize` (PIL LANCZOS
resampling) and `unsharp` (PIL `UnsharpMask(radius=1.5, percent=140,
threshold=3)`) are external PIL collaborators, taken as parameters. -/
def blend_to_image1_style (resize : Img → ℕ × ℕ → Img) (unsharp : Img → Img)
    (main_img mosaic_img : Img) (cols rows : ℕ) : Img × ℚ :=
  let original_resized := resize main_img (mosaic_img.width, mosaic_img.height)
  let alpha := auto_tile_alpha cols rows
  let blended := blendImg original_resized mosaic_img alpha
  (unsharp blended, alpha)

lemma blendChannel_zero (p q : ℕ) (hp : p ≤ 255) : blendChannel 0 p q = p := by
  unfold blendChannel
  have h1 : (1 - (0 : ℚ)) * (p : ℚ) + 0 * (q : ℚ) = (p : ℚ) := by ring
  rw [h1, round_natCast, Int.toNat_natCast, min_eq_right hp]

lemma blendChannel_one (p q : ℕ) (hq : q ≤ 255) : blendChannel 1 p q = q := by
  unfold blendChannel
  have h1 : (1 - (1 : ℚ)) * (p : ℚ) + 1 * (q : ℚ) = (q : ℚ) := by ring
  rw [h1, round_natCast, Int.toNat_natCast, min_eq_right hq]

/-- Claim C4: For images of equal pixel dimensions, blending with `alpha = 0`
yields the (resized) original exactly and `alpha = 1` yields the canvas
exactly, both before the sharpening pass; and `blend_to_image1_style`
applies the fixed unsharp mask strictly after blending — its image output
is the unsharp mask of the blended image, never an unsharp input to the
blend. -/
theorem blend_endpoints_and_sharpen_order (resize : Img → ℕ × ℕ → Img)
    (unsharp : Img → Img) (main_img mosaic_img : Img) (cols rows : ℕ)
    (a b : Img) (hw : a.width = b.width) (hh : a.height = b.height)
    (hva : validImg a) (hvb : validImg b) :
    (blend_to_image1_style resize unsharp main_img mosaic_img cols rows).1 =
      unsharp (blendImg (resize main_img (mosaic_img.width, mosaic_img.height))
        mosaic_img (auto_tile_alpha cols rows)) ∧
    (blend_to_image1_style resize unsharp main_img mosaic_img cols rows).2 =
      auto_tile_alpha cols rows ∧
    blendImg a b 0 = a ∧
    blendImg a b 1 = b := by
  refine ⟨rfl, rfl, ?_, ?_⟩
  · refine Img.ext' rfl rfl (funext fun x => funext fun y => ?_)
    obtain ⟨h1, h2, h3⟩ := hva x y
    show (blendChannel 0 (a.pix x y).1 (b.pix x y).1,
      blendChannel 0 (a.pix x y).2.1 (b.pix x y).2.1,
      blendChannel 0 (a.pix x y).2.2 (b.pix x y).2.2) = a.pix x y
    rw [blendChannel_zero _ _ h1, blendChannel_zero _ _ h2, blendChannel_zero _ _ h3]
  · refine Img.ext' hw hh (funext fun x => funext fun y => ?_)
    obtain ⟨h1, h2, h3⟩ := hvb x y
    show (blendChannel 1 (a.pix x y).1 (b.pix x y).1,
      blendChannel 1 (a.pix x y).2.1 (b.pix x y).2.1,
      blendChannel 1 (a.pix x y).2.2 (b.pix x y).2.2) = b.pix x y
    rw [blendChannel_one _ _ h1, blendChannel_one _ _ h2, blendChannel_one (q := (b.pix x y).2.2) _ h3]

/-- Witness for C4 on two constant 2×2 images. -/
theorem blend_endpoints_and_sharpen_order_witness :
    (imageNew 2 2).width = (Img.mk 2 2 (fun _ _ => (9, 9, 9))).width ∧
    (imageNew 2 2).height = (Img.mk 2 2 (fun _ _ => (9, 9, 9))).height ∧
    validImg (imageNew 2 2) ∧
    validImg (Img.mk 2 2 (fun _ _ => (9, 9, 9))) ∧
    ((blend_to_image1_style (fun im _ => im) id (imageNew 2 2)
        (Img.mk 2 2 (fun _ _ => (9, 9, 9))) 60 60).1 =
      id (blendImg ((fun (im : Img) (_ : ℕ × ℕ) => im) (imageNew 2 2)
          ((Img.mk 2 2 (fun _ _ => (9, 9, 9))).width,
           (Img.mk 2 2 (fun _ _ => (9, 9, 9))).height))
        (Img.mk 2 2 (fun _ _ => (9, 9, 9))) (auto_tile_alpha 60 60)) ∧
     (blend_to_image1_style (fun im _ => im) id (imageNew 2 2)
        (Img.mk 2 2 (fun _ _ => (9, 9, 9))) 60 60).2 = auto_tile_alpha 60 60 ∧
     blendImg (imageNew 2 2) (Img.mk 2 2 (fun _ _ => (9, 9, 9))) 0 = imageNew 2 2 ∧
     blendImg (imageNew 2 2) (Img.mk 2 2 (fun _ _ => (9, 9, 9))) 1 =
       Img.mk 2 2 (fun _ _ => (9, 9, 9))) :=
  ⟨rfl, rfl,
   fun _ _ => ⟨Nat.zero_le 255, Nat.zero_le 255, Nat.zero_le 255⟩,
   fun _ _ => ⟨show (9 : ℕ) ≤ 255 by norm_num, show (9 : ℕ) ≤ 255 by norm_num,
     show (9 : ℕ) ≤ 255 by norm_num⟩,
   blend_endpoints_and_sharpen_order (fun im _ => im) id (imageNew 2 2)
     (Img.mk 2 2 (fun _ _ => (9, 9, 9))) 60 60 (imageNew 2 2)
     (Img.mk 2 2 (fun _ _ => (9, 9, 9))) rfl rfl
     (fun _ _ => ⟨Nat.zero_le 255, Nat.zero_le 255, Nat.zero_le 255⟩)
     (fun _ _ => ⟨show (9 : ℕ) ≤ 255 by norm_num, show (9 : ℕ) ≤ 255 by norm_num,
       show (9 : ℕ) ≤ 255 by norm_num⟩)⟩

/-- The fatal error taxonomy of `main` (the spec's `SourceImageMissing`,
`TileDirectoryMissing` and `InsufficientTilesError`; the code raises
`FileNotFoundError`, `NotADirectoryError` and `RuntimeError`
respectively). -/
inductive MosaicError where
  | sourceMissing : MosaicError
  | tilesDirMissing : MosaicError
  | insufficientTiles : MosaicError
deriving DecidableEq

/-- The configured minimum number of decoded tiles (`main`, line 201:
`if len(tile_imgs) < 20`). -/
def MIN_TILES : ℕ := 20

/-- The tile-count gate of `main` (lines 198–202), with the whole
downstream mosaic computation abstracted as `pipeline`: fewer than
`MIN_TILES` decoded tiles raises `InsufficientTilesError` before any mosaic
processing runs; otherwise the pipeline runs on the decoded tiles. -/
def mainTileGate {α : Type} (pipeline : List Img → α) (tile_imgs : List Img) :
    Except MosaicError α :=
  if tile_imgs.length < MIN_TILES then Except.error MosaicError.insufficientTiles
  else Except.ok (pipeline tile_imgs)

/-- Claim C6: Exactly `MIN_TILES - 1` successfully decoded tiles fail the run
with `InsufficientTilesError` before any mosaic processing (the pipeline
is never invoked); exactly `MIN_TILES` decoded tiles proceed without that
error. -/
theorem mainTileGate_boundary {α : Type} (pipeline : List Img → α)
    (tiles19 tiles20 : List Img)
    (h19 : tiles19.length = MIN_TILES - 1) (h20 : tiles20.length = MIN_TILES) :
    mainTileGate pipeline tiles19 = Except.error MosaicError.insufficientTiles ∧
    mainTileGate pipeline tiles20 = Except.ok (pipeline tiles20) := by
  constructor
  · unfold mainTileGate
    rw [h19]
    rfl
  · unfold mainTileGate
    rw [h20]
    rfl

/-- Witness for C6 with 19 and 20 blank tiles. -/
theorem mainTileGate_boundary_witness :
    (List.replicate 19 (imageNew 1 1)).length = MIN_TILES - 1 ∧
    (List.replicate 20 (imageNew 1 1)).length = MIN_TILES ∧
    (mainTileGate List.length (List.replicate 19 (imageNew 1 1)) =
        Except.error MosaicError.insufficientTiles ∧
     mainTileGate List.length (List.replicate 20 (imageNew 1 1)) =
        Except.ok (List.replicate 20 (imageNew 1 1)).length) :=
  ⟨by decide, by decide,
   mainTileGate_boundary List.length (List.replicate 19 (imageNew 1 1))
     (List.replicate 20 (imageNew 1 1)) (by decide) (by decide)⟩
